import Mathlib

/-!
Shallow embedding of the core components of the lark-imagine-robot repository:

* `Queue`   — the generation admission queue (`GenerationQueue` in
  `src/queue/generation-queue.ts`): bounded concurrency, FIFO wait list,
  queue-position notifications.
* `Cache`   — the encrypted LRU cache (`EncryptedLRUCache` in
  `src/cache/encrypted-lru-cache.ts`): LRU eviction, TTL expiry, AEAD
  encryption modelled as abstract encode/decode functions.
* `SessionM` — the session lifecycle store (`SessionManager` in
  `src/session/manager.ts`).

Machine integers are modelled as `Nat` (all counters and timestamps in the
source are non-negative in every reachable state; JavaScript `Date.now()`
deltas are compared with `>` against a non-negative TTL, which `Nat`
subtraction reflects faithfully for monotone clocks). Fallible operations
return `Option`. The JavaScript `Map` iteration order (insertion order,
delete-then-reinsert moving a key to the end) is modelled as an association
list whose head is the oldest entry and whose tail end is the newest.
-/

namespace Queue

/-- Configuration of the generation queue, read from the config layer at
construction time (`maxConcurrency`, `maxQueueLength`). -/
structure QueueConfig where
  maxConcurrency : Nat
  maxQueueLength : Nat
deriving DecidableEq

/-- One waiting job, as in the source's `QueueItem` (the opaque
`service` job handle is irrelevant to scheduling and omitted). -/
structure QueueItem where
  sessionId : String
  enqueuedAt : Nat
deriving DecidableEq

/-- One queue-position notification pushed to a waiter: session id,
1-indexed position, total number of waiters. An entry of `none` records a
waiter that was skipped because its session has no status card
(the `continue` branch of `notifyQueuePositions`). -/
abbrev Notif : Type := Option (String × Nat × Nat)

/-- State of the queue, instrumented with a dispatch log (`dlog`: waiters
popped from the wait list, in dispatch order) and a notification log
(`nlog`: one batch per `notifyQueuePositions` call). The instrumentation
only records what the source does; it never influences control flow. -/
structure QueueState where
  running : Nat
  waiting : List QueueItem
  dlog : List QueueItem
  nlog : List (List Notif)
deriving DecidableEq

/-- Initial state: `running = 0`, empty wait list. -/
def initState : QueueState :=
  { running := 0, waiting := [], dlog := [], nlog := [] }

/-- Rejection message of `enqueue` when the wait list is full
(the template literal in the source, with the configured limit spliced in). -/
def queueFullReason (n : Nat) : String :=
  "当前排队人数已达上限 (" ++ toString n ++ ")，请稍后再试"

/-- Result type of `enqueue`, as in the source's `EnqueueResult`. -/
inductive EnqueueResult where
  | accepted (position : Nat)
  | rejected (reason : String)
deriving DecidableEq

/-- Notification batch built by `notifyQueuePositions`: the source loops
`i` from `0` over the current wait list, computing `newPosition = i + 1`
and total `waiting.length`, skipping waiters whose session has no
`cardMessageId` (predicate `card`). `total` and the running index are
threaded explicitly to mirror the loop. -/
def notifyFrom (card : String → Bool) (total : Nat) : Nat → List QueueItem → List Notif
  | _, [] => []
  | i, item :: rest =>
      (if card item.sessionId then some (item.sessionId, i + 1, total) else none)
        :: notifyFrom card total (i + 1) rest

/-- Notifications sent by one call of `notifyQueuePositions` over wait
list `waiting`. -/
def notifyQueuePositions (card : String → Bool) (waiting : List QueueItem) : List Notif :=
  notifyFrom card waiting.length 0 waiting

/-- Drain loop of `processNext`: while `running < maxConcurrency` and the
wait list is non-empty, shift the head, run it (increment `running`,
record the dispatch) and notify the remaining waiters of their new
positions. -/
def drainAux (cfg : QueueConfig) (card : String → Bool) :
    Nat → List QueueItem → List QueueItem → List (List Notif) → QueueState
  | running, [], dlog, nlog =>
      { running := running, waiting := [], dlog := dlog, nlog := nlog }
  | running, next :: rest, dlog, nlog =>
      if running < cfg.maxConcurrency then
        drainAux cfg card (running + 1) rest (dlog ++ [next])
          (nlog ++ [notifyQueuePositions card rest])
      else
        { running := running, waiting := next :: rest, dlog := dlog, nlog := nlog }

/-- `processNext` entry point from a completion callback. -/
def processNext (cfg : QueueConfig) (card : String → Bool) (s : QueueState) : QueueState :=
  drainAux cfg card s.running s.waiting s.dlog s.nlog

/-- `enqueue(sessionId, service)`: immediate admission when a concurrency
slot is free and nobody is waiting; rejection when the wait list is at
`maxQueueLength`; otherwise append to the wait list and report the
1-indexed position (the new wait-list length). -/
def enqueue (cfg : QueueConfig) (sid : String) (now : Nat) (s : QueueState) :
    EnqueueResult × QueueState :=
  if s.running < cfg.maxConcurrency ∧ s.waiting = [] then
    (EnqueueResult.accepted 0, { s with running := s.running + 1 })
  else if cfg.maxQueueLength ≤ s.waiting.length then
    (EnqueueResult.rejected (queueFullReason cfg.maxQueueLength), s)
  else
    let waiting' := s.waiting ++ [{ sessionId := sid, enqueuedAt := now }]
    (EnqueueResult.accepted waiting'.length, { s with waiting := waiting' })

/-- Events driving the queue: an `enqueue` call, or a job-completion
callback (the `.finally` handler: decrement `running`, then
`processNext`). -/
inductive QEvent where
  | enq (sid : String) (now : Nat)
  | complete

/-- One event step of the queue. -/
def step (cfg : QueueConfig) (card : String → Bool) (s : QueueState) : QEvent → QueueState
  | QEvent.enq sid now => (enqueue cfg sid now s).2
  | QEvent.complete => processNext cfg card { s with running := s.running - 1 }

/-- Run of the queue over a list of events from the initial state. -/
def runEvents (cfg : QueueConfig) (card : String → Bool) (es : List QEvent) : QueueState :=
  es.foldl (step cfg card) initState

/-- Arrival history of queued waiters: all waiters ever placed on the
wait list in arrival order, split as dispatched ones followed by the ones
still waiting. -/
def hist (s : QueueState) : List QueueItem :=
  s.dlog ++ s.waiting

/-- Joint scheduling invariant: the running counter never exceeds the
concurrency bound, and a non-empty wait list forces a saturated running
counter. -/
def Inv (cfg : QueueConfig) (s : QueueState) : Prop :=
  s.running ≤ cfg.maxConcurrency ∧ (s.waiting ≠ [] → s.running = cfg.maxConcurrency)

theorem drainAux_inv (cfg : QueueConfig) (card : String → Bool) :
    ∀ (w : List QueueItem) (r : Nat) (d : List QueueItem) (n : List (List Notif)),
      r ≤ cfg.maxConcurrency → Inv cfg (drainAux cfg card r w d n) := by
  intro w
  induction w with
  | nil =>
      intro r d n hr
      exact ⟨hr, fun h => absurd rfl h⟩
  | cons next rest ih =>
      intro r d n hr
      unfold drainAux
      by_cases h : r < cfg.maxConcurrency
      · simp only [h, if_true]
        exact ih (r + 1) (d ++ [next]) (n ++ [notifyQueuePositions card rest]) h
      · simp only [h, if_false]
        exact ⟨hr, fun _ => Nat.le_antisymm hr (Nat.le_of_not_lt h)⟩

theorem step_inv (cfg : QueueConfig) (card : String → Bool) (s : QueueState) (e : QEvent)
    (hs : Inv cfg s) : Inv cfg (step cfg card s e) := by
  obtain ⟨h1, h2⟩ := hs
  cases e with
  | enq sid now =>
      simp only [step, enqueue]
      by_cases hc : s.running < cfg.maxConcurrency ∧ s.waiting = []
      · rw [if_pos hc]
        exact ⟨hc.1, fun h => absurd hc.2 h⟩
      · rw [if_neg hc]
        by_cases hf : cfg.maxQueueLength ≤ s.waiting.length
        · rw [if_pos hf]
          exact ⟨h1, h2⟩
        · rw [if_neg hf]
          refine ⟨h1, fun _ => ?_⟩
          by_cases hnil : s.waiting = []
          · rcases Nat.lt_or_ge s.running cfg.maxConcurrency with hlt | hge
            · exact absurd ⟨hlt, hnil⟩ hc
            · exact Nat.le_antisymm h1 hge
          · exact h2 hnil
  | complete =>
      simp only [step, processNext]
      exact drainAux_inv cfg card s.waiting (s.running - 1) s.dlog s.nlog
        (Nat.le_trans (Nat.sub_le _ _) h1)

theorem runEvents_inv (cfg : QueueConfig) (card : String → Bool) (es : List QEvent) :
    Inv cfg (runEvents cfg card es) := by
  have base : Inv cfg initState := ⟨Nat.zero_le _, fun h => absurd rfl h⟩
  have gen : ∀ (l : List QEvent) (s : QueueState), Inv cfg s →
      Inv cfg (l.foldl (step cfg card) s) := by
    intro l
    induction l with
    | nil => intro s hs; exact hs
    | cons e rest ih =>
        intro s hs
        exact ih (step cfg card s e) (step_inv cfg card s e hs)
  exact gen es initState base

/-- C1 — Admission correctness: for every sequence of enqueue and
job-completion events starting from the initial state, the running-job
counter never exceeds `maxConcurrency`. -/
theorem admission_never_exceeds_maxConcurrency (cfg : QueueConfig) (card : String → Bool)
    (es : List QEvent) : (runEvents cfg card es).running ≤ cfg.maxConcurrency :=
  (runEvents_inv cfg card es).1

/-- C10 — Work conservation: after every sequence of enqueue and
job-completion events, if the wait list is non-empty then the running
counter equals `maxConcurrency` (no job waits while a slot is free). -/
theorem waiting_nonempty_implies_saturated (cfg : QueueConfig) (card : String → Bool)
    (es : List QEvent) (h : (runEvents cfg card es).waiting ≠ []) :
    (runEvents cfg card es).running = cfg.maxConcurrency :=
  (runEvents_inv cfg card es).2 h

/-- Witness for C10: with `maxConcurrency = 1, maxQueueLength = 2`,
enqueuing two jobs leaves one waiter and a saturated running counter. -/
theorem waiting_nonempty_implies_saturated_witness :
    (runEvents ⟨1, 2⟩ (fun _ => true) [QEvent.enq "A" 0, QEvent.enq "B" 1]).waiting ≠ [] ∧
    (runEvents ⟨1, 2⟩ (fun _ => true) [QEvent.enq "A" 0, QEvent.enq "B" 1]).running = 1 :=
  ⟨by decide, waiting_nonempty_implies_saturated ⟨1, 2⟩ (fun _ => true)
    [QEvent.enq "A" 0, QEvent.enq "B" 1] (by decide)⟩

/-- Three-case admission rule written from the spec's words (§4.2): start
immediately with position 0 when a slot is free and nobody waits; reject
without mutating state when the wait list is at `maxQueueLength`;
otherwise append and report the new wait-list length as the 1-indexed
position. -/
def enqueueSpecRule (cfg : QueueConfig) (sid : String) (now : Nat) (s : QueueState) :
    EnqueueResult × QueueState :=
  if s.running < cfg.maxConcurrency ∧ s.waiting = [] then
    (EnqueueResult.accepted 0, { s with running := s.running + 1 })
  else if cfg.maxQueueLength ≤ s.waiting.length then
    (EnqueueResult.rejected (queueFullReason cfg.maxQueueLength), s)
  else
    (EnqueueResult.accepted (s.waiting.length + 1),
      { s with waiting := s.waiting ++ [{ sessionId := sid, enqueuedAt := now }] })

/-- C2 — the source's `enqueue` behaves exactly as the spec's three-case
rule on every queue state: immediate start with position 0, rejection
with the queue-full reason leaving `running` and the wait list unchanged,
or appending with 1-indexed position equal to the new wait-list length. -/
theorem enqueue_matches_spec_rule (cfg : QueueConfig) (sid : String) (now : Nat)
    (s : QueueState) : enqueue cfg sid now s = enqueueSpecRule cfg sid now s := by
  unfold enqueue enqueueSpecRule
  by_cases hc : s.running < cfg.maxConcurrency ∧ s.waiting = []
  · rw [if_pos hc, if_pos hc]
  · rw [if_neg hc, if_neg hc]
    by_cases hf : cfg.maxQueueLength ≤ s.waiting.length
    · rw [if_pos hf, if_pos hf]
    · rw [if_neg hf, if_neg hf]
      simp

theorem drainAux_hist (cfg : QueueConfig) (card : String → Bool) :
    ∀ (w : List QueueItem) (r : Nat) (d : List QueueItem) (n : List (List Notif)),
      (drainAux cfg card r w d n).dlog ++ (drainAux cfg card r w d n).waiting = d ++ w := by
  intro w
  induction w with
  | nil =>
      intro r d n
      simp [drainAux]
  | cons next rest ih =>
      intro r d n
      unfold drainAux
      by_cases h : r < cfg.maxConcurrency
      · rw [if_pos h]
        rw [ih (r + 1) (d ++ [next]) (n ++ [notifyQueuePositions card rest])]
        simp
      · rw [if_neg h]

theorem step_hist (cfg : QueueConfig) (card : String → Bool) (s : QueueState) (e : QEvent) :
    ∃ tl, hist (step cfg card s e) = hist s ++ tl := by
  cases e with
  | enq sid now =>
      simp only [step, enqueue]
      by_cases hc : s.running < cfg.maxConcurrency ∧ s.waiting = []
      · rw [if_pos hc]
        exact ⟨[], by simp [hist]⟩
      · rw [if_neg hc]
        by_cases hf : cfg.maxQueueLength ≤ s.waiting.length
        · rw [if_pos hf]
          exact ⟨[], by simp [hist]⟩
        · rw [if_neg hf]
          exact ⟨[{ sessionId := sid, enqueuedAt := now }], by simp [hist]⟩
  | complete =>
      refine ⟨[], ?_⟩
      simp only [step, processNext, hist]
      rw [drainAux_hist]
      simp

theorem runEvents_append_eq (cfg : QueueConfig) (card : String → Bool)
    (es es' : List QEvent) :
    runEvents cfg card (es ++ es') = es'.foldl (step cfg card) (runEvents cfg card es) := by
  unfold runEvents
  exact List.foldl_append _ _ es es'

theorem foldl_hist_extends (cfg : QueueConfig) (card : String → Bool) :
    ∀ (es' : List QEvent) (s : QueueState),
      ∃ tl, hist (es'.foldl (step cfg card) s) = hist s ++ tl := by
  intro es'
  induction es' with
  | nil => intro s; exact ⟨[], by simp⟩
  | cons e rest ih =>
      intro s
      obtain ⟨t1, h1⟩ := step_hist cfg card s e
      obtain ⟨t2, h2⟩ := ih (step cfg card s e)
      refine ⟨t1 ++ t2, ?_⟩
      simp only [List.foldl_cons]
      rw [h2, h1, List.append_assoc]

/-- C3 — FIFO dispatch order: if, after events `es`, waiter `A` stands at
position `i` and waiter `B` at position `j > i` of the arrival history of
queued jobs (dispatched waiters followed by the current FIFO wait list,
so both were placed on the wait list rather than admitted immediately),
and `B` has been dispatched after further events `es'`, then `A` has been
dispatched as well, at the strictly earlier dispatch index `i`, and the
job dispatched at index `i` is exactly `A`: dispatch always removes the
head of the FIFO wait list, so an earlier arrival is never dispatched
after a later one. -/
theorem fifo_dispatch_order (cfg : QueueConfig) (card : String → Bool)
    (es es' : List QEvent) (i j : Nat) (dflt : QueueItem)
    (hij : i < j)
    (hjh : j < (hist (runEvents cfg card es)).length)
    (hjd : j < (runEvents cfg card (es ++ es')).dlog.length) :
    i < (runEvents cfg card (es ++ es')).dlog.length ∧
    (runEvents cfg card (es ++ es')).dlog.getD i dflt
      = (hist (runEvents cfg card es)).getD i dflt := by
  have hlt : i < (runEvents cfg card (es ++ es')).dlog.length := Nat.lt_trans hij hjd
  refine ⟨hlt, ?_⟩
  have hext : ∃ tl, hist (runEvents cfg card (es ++ es'))
      = hist (runEvents cfg card es) ++ tl := by
    rw [runEvents_append_eq cfg card es es']
    exact foldl_hist_extends cfg card es' (runEvents cfg card es)
  obtain ⟨tl, htl⟩ := hext
  have hd : (runEvents cfg card (es ++ es')).dlog.getD i dflt
      = (hist (runEvents cfg card (es ++ es'))).getD i dflt := by
    unfold hist
    rw [List.getD_append _ _ _ _ hlt]
  rw [hd, htl, List.getD_append _ _ _ _ (Nat.lt_trans hij hjh)]

/-- Witness for C3: with `maxConcurrency = 1, maxQueueLength = 5`,
enqueue A, B, C (B and C wait), then two completions dispatch B first and
C second; position 0 of the dispatch log is B, the earlier arrival. -/
theorem fifo_dispatch_order_witness :
    0 < (runEvents ⟨1, 5⟩ (fun _ => false)
        ([QEvent.enq "A" 0, QEvent.enq "B" 1, QEvent.enq "C" 2]
          ++ [QEvent.complete, QEvent.complete])).dlog.length ∧
    (runEvents ⟨1, 5⟩ (fun _ => false)
        ([QEvent.enq "A" 0, QEvent.enq "B" 1, QEvent.enq "C" 2]
          ++ [QEvent.complete, QEvent.complete])).dlog.getD 0 { sessionId := "", enqueuedAt := 0 }
      = (hist (runEvents ⟨1, 5⟩ (fun _ => false)
          [QEvent.enq "A" 0, QEvent.enq "B" 1, QEvent.enq "C" 2])).getD 0
            { sessionId := "", enqueuedAt := 0 } :=
  fifo_dispatch_order ⟨1, 5⟩ (fun _ => false)
    [QEvent.enq "A" 0, QEvent.enq "B" 1, QEvent.enq "C" 2]
    [QEvent.complete, QEvent.complete] 0 1 { sessionId := "", enqueuedAt := 0 }
    (by decide) (by decide) (by decide)

theorem notifyFrom_get (card : String → Bool) (total : Nat) :
    ∀ (w : List QueueItem) (k j : Nat),
      (notifyFrom card total k w).get? j
        = (w.get? j).map (fun item =>
            if card item.sessionId then some (item.sessionId, k + j + 1, total) else none) := by
  intro w
  induction w with
  | nil =>
      intro k j
      simp [notifyFrom]
  | cons item rest ih =>
      intro k j
      cases j with
      | zero => simp [notifyFrom]
      | succ j' =>
          simp only [notifyFrom, List.get?_cons_succ]
          rw [ih (k + 1) j']
          have harith : k + 1 + j' + 1 = k + (j' + 1) + 1 := by omega
          rw [harith]

theorem drainAux_stuck (cfg : QueueConfig) (card : String → Bool)
    (r : Nat) (w : List QueueItem) (d : List QueueItem) (n : List (List Notif))
    (h : ¬ r < cfg.maxConcurrency) :
    drainAux cfg card r w d n = { running := r, waiting := w, dlog := d, nlog := n } := by
  cases w with
  | nil => rfl
  | cons a w' =>
      unfold drainAux
      rw [if_neg h]

/-- C4 — position renumbering: a job completion on a saturated queue with
a non-empty wait list dispatches exactly the head waiter, leaves the tail
waiting, and emits exactly one notification batch over the remaining
waiters; in that batch every waiter notified before (at slot `i + 1` with
1-indexed position `p` and total `t`) is notified again (now at slot `i`)
with position exactly `p - 1` and total exactly `t - 1`. -/
theorem complete_renumbers_waiters (cfg : QueueConfig) (card : String → Bool)
    (s : QueueState) (a : QueueItem) (w : List QueueItem)
    (h1 : s.running = cfg.maxConcurrency) (h2 : 0 < cfg.maxConcurrency)
    (hw : s.waiting = a :: w) :
    step cfg card s QEvent.complete
      = { running := cfg.maxConcurrency, waiting := w, dlog := s.dlog ++ [a],
          nlog := s.nlog ++ [notifyQueuePositions card w] } ∧
    ∀ (i : Nat) (sid : String) (p t : Nat),
      (notifyQueuePositions card (a :: w)).get? (i + 1) = some (some (sid, p, t)) →
        (notifyQueuePositions card w).get? i = some (some (sid, p - 1, t - 1))
          ∧ p = i + 2 ∧ t = w.length + 1 := by
  constructor
  · simp only [step, processNext, hw, h1]
    unfold drainAux
    have hlt : cfg.maxConcurrency - 1 < cfg.maxConcurrency := Nat.sub_lt h2 Nat.one_pos
    rw [if_pos hlt]
    have hsucc : cfg.maxConcurrency - 1 + 1 = cfg.maxConcurrency := Nat.succ_pred_eq_of_pos h2
    rw [hsucc, drainAux_stuck cfg card _ _ _ _ (Nat.lt_irrefl _)]
  · intro i sid p t hnot
    rw [notifyQueuePositions, notifyFrom_get card _ (a :: w) 0 (i + 1),
      List.get?_cons_succ] at hnot
    rw [notifyQueuePositions, notifyFrom_get card _ w 0 i]
    cases hitem : w.get? i with
    | none =>
        rw [hitem] at hnot
        simp at hnot
    | some item =>
        rw [hitem] at hnot
        simp only [Option.map_some'] at hnot
        by_cases hcard : card item.sessionId
        · rw [if_pos hcard] at hnot
          have hinj : (some (item.sessionId, 0 + (i + 1) + 1, a :: w |>.length))
              = (some (sid, p, t)) := Option.some.inj hnot
          have hsid : item.sessionId = sid := congrArg (fun q => q.1) (Option.some.inj hinj)
          have hp : 0 + (i + 1) + 1 = p := congrArg (fun q => q.2.1) (Option.some.inj hinj)
          have ht : (a :: w).length = t := congrArg (fun q => q.2.2) (Option.some.inj hinj)
          rw [hsid] at hcard
          simp only [Option.map_some', hsid, if_pos hcard]
          refine ⟨?_, by omega, by simp at ht; omega⟩
          have hp' : p - 1 = 0 + i + 1 := by omega
          have ht' : t - 1 = w.length := by
            simp only [List.length_cons] at ht
            omega
          rw [hp', ht']
        · rw [if_neg hcard] at hnot
          simp at hnot

/-- Witness for C4: `maxConcurrency = 1`, running job completes with
waiters B (position 1) and C (position 2); B is dispatched, C is
renumbered from position 2 of 2 to position 1 of 1. -/
theorem complete_renumbers_waiters_witness :
    step ⟨1, 5⟩ (fun _ => true)
        { running := 1, waiting := [⟨"B", 0⟩, ⟨"C", 0⟩], dlog := [], nlog := [] }
        QEvent.complete
      = { running := 1, waiting := [⟨"C", 0⟩], dlog := [⟨"B", 0⟩],
          nlog := [notifyQueuePositions (fun _ => true) [⟨"C", 0⟩]] } ∧
    ((notifyQueuePositions (fun _ => true) [⟨"C", 0⟩]).get? 0 = some (some ("C", 1, 1))
      ∧ 2 = 0 + 2 ∧ 2 = 2) :=
  have h := complete_renumbers_waiters ⟨1, 5⟩ (fun _ => true)
    { running := 1, waiting := [⟨"B", 0⟩, ⟨"C", 0⟩], dlog := [], nlog := [] }
    ⟨"B", 0⟩ [⟨"C", 0⟩] rfl (by decide) rfl
  ⟨h.1, h.2 0 "C" 2 2 (by decide)⟩

end Queue

namespace Cache

/-- Stored entry of the encrypted LRU cache: hex-encoded ciphertext, IV
and authentication tag (opaque strings here), plus the two timestamps. -/
structure CacheEntry where
  ciphertext : String
  iv : String
  authTag : String
  createdAt : Nat
  lastAccessedAt : Nat
deriving DecidableEq

/-- Construction context of `EncryptedLRUCache<T>`: size cap, TTL, and
the cryptographic and serialization primitives (AES-256-GCM under the
SHA-256-derived key, and `JSON.stringify`/`JSON.parse`) as abstract
functions. `enc` returns (ciphertext, iv, authTag); `dec` is partial
because GCM authentication and JSON parsing can fail. -/
structure CacheCtx (V : Type) where
  maxSize : Nat
  ttlMs : Nat
  enc : String → String × String × String
  dec : String → String → String → Option String
  ser : V → String
  deser : String → Option V

/-- Backing store: association list in JavaScript `Map` iteration order
(head = oldest insertion, tail end = newest). -/
abbrev Store : Type := List (String × CacheEntry)

/-- Lookup in `Map` order (keys are unique in every reachable store). -/
def lookupE (k : String) : Store → Option CacheEntry
  | [] => none
  | (k', e) :: rest => if k' = k then some e else lookupE k rest

/-- Removal of a key, as `Map.delete` (keys being unique, removing every
occurrence coincides with removing the one entry). -/
def eraseE (k : String) : Store → Store
  | [] => []
  | (k', e) :: rest => if k' = k then eraseE k rest else (k', e) :: eraseE k rest

/-- Capacity loop of `set`: while the store holds at least `maxSize`
entries, delete the oldest (the head of the iteration order). -/
def evictOldest (maxSize : Nat) : Store → Store
  | [] => []
  | e :: rest => if maxSize ≤ (e :: rest).length then evictOldest maxSize rest else e :: rest

/-- `set(key, value)`: delete the key, evict while at capacity, then
append the freshly encrypted entry at the most-recently-used end with
`createdAt = lastAccessedAt = now`. -/
def set {V : Type} (ctx : CacheCtx V) (now : Nat) (k : String) (v : V) (store : Store) :
    Store :=
  let store1 := eraseE k store
  let store2 := evictOldest ctx.maxSize store1
  let c := ctx.enc (ctx.ser v)
  store2 ++ [(k, { ciphertext := c.1, iv := c.2.1, authTag := c.2.2,
                   createdAt := now, lastAccessedAt := now })]

/-- `get(key)`: miss on unknown key; lazy deletion and miss once
`now - createdAt > ttlMs`; otherwise move the entry to the
most-recently-used end with a fresh `lastAccessedAt`, then decrypt and
deserialize, deleting the entry and reporting a miss if either fails.
Returns the result together with the new store; the function is total,
so no call ever surfaces an error. -/
def get {V : Type} (ctx : CacheCtx V) (now : Nat) (k : String) (store : Store) :
    Option V × Store :=
  match lookupE k store with
  | none => (none, store)
  | some e =>
      if ctx.ttlMs < now - e.createdAt then (none, eraseE k store)
      else
        let e' := { e with lastAccessedAt := now }
        let store1 := eraseE k store ++ [(k, e')]
        match ctx.dec e.ciphertext e.iv e.authTag with
        | none => (none, eraseE k store1)
        | some p =>
            match ctx.deser p with
            | none => (none, eraseE k store1)
            | some v => (some v, store1)

/-- `has(key)`: the same lazy-expiry check as `get` without decryption or
LRU reordering. -/
def hasKey {V : Type} (ctx : CacheCtx V) (now : Nat) (k : String) (store : Store) :
    Bool × Store :=
  match lookupE k store with
  | none => (false, store)
  | some e =>
      if ctx.ttlMs < now - e.createdAt then (false, eraseE k store)
      else (true, store)

/-- `delete(key)`: unconditional removal, reporting whether the key was
present. -/
def deleteE (k : String) (store : Store) : Bool × Store :=
  ((lookupE k store).isSome, eraseE k store)

/-- `prune()`: delete every expired entry. -/
def prune {V : Type} (ctx : CacheCtx V) (now : Nat) (store : Store) : Store :=
  store.filter (fun kv => ¬ ctx.ttlMs < now - kv.2.createdAt)

/-- Keys of a store in iteration order. -/
def keys (store : Store) : List String :=
  store.map Prod.fst

theorem lookupE_eraseE_self (k : String) : ∀ store : Store, lookupE k (eraseE k store) = none := by
  intro store
  induction store with
  | nil => rfl
  | cons kv rest ih =>
      obtain ⟨k', e⟩ := kv
      simp only [eraseE]
      by_cases h : k' = k
      · rw [if_pos h]
        exact ih
      · rw [if_neg h]
        simp only [lookupE]
        rw [if_neg h]
        exact ih

theorem lookupE_append_of_left_none (k : String) (l2 : Store) :
    ∀ l1 : Store, lookupE k l1 = none → lookupE k (l1 ++ l2) = lookupE k l2 := by
  intro l1
  induction l1 with
  | nil => intro _; rfl
  | cons kv rest ih =>
      obtain ⟨k', e⟩ := kv
      intro h
      simp only [lookupE] at h
      simp only [List.cons_append, lookupE]
      by_cases hk : k' = k
      · rw [if_pos hk] at h
        exact absurd h (by simp)
      · rw [if_neg hk] at h
        rw [if_neg hk]
        exact ih h

theorem lookupE_evictOldest_none (k : String) (m : Nat) :
    ∀ l : Store, lookupE k l = none → lookupE k (evictOldest m l) = none := by
  intro l
  induction l with
  | nil => intro _; rfl
  | cons kv rest ih =>
      obtain ⟨k', e⟩ := kv
      intro h
      simp only [lookupE] at h
      by_cases hk : k' = k
      · rw [if_pos hk] at h
        exact absurd h (by simp)
      · rw [if_neg hk] at h
        simp only [evictOldest]
        by_cases hm : m ≤ ((k', e) :: rest).length
        · rw [if_pos hm]
          exact ih h
        · rw [if_neg hm]
          simp only [lookupE]
          rw [if_neg hk]
          exact h

/-- Entry written by `set` at time `now`: the freshly encrypted payload
with both timestamps set to `now`. -/
def freshEntry {V : Type} (ctx : CacheCtx V) (now : Nat) (v : V) : CacheEntry :=
  { ciphertext := (ctx.enc (ctx.ser v)).1, iv := (ctx.enc (ctx.ser v)).2.1,
    authTag := (ctx.enc (ctx.ser v)).2.2, createdAt := now, lastAccessedAt := now }

theorem lookupE_set_self {V : Type} (ctx : CacheCtx V) (now : Nat) (k : String) (v : V)
    (store : Store) :
    lookupE k (set ctx now k v store) = some (freshEntry ctx now v) := by
  unfold set freshEntry
  rw [lookupE_append_of_left_none k _ _
    (lookupE_evictOldest_none k ctx.maxSize _ (lookupE_eraseE_self k store))]
  simp [lookupE]

/-- C5 — cache round-trip: for every value whose serialization
deserializes back to it, every key and every (AEAD-correct) secret,
`set(k, v)` at time `t0` followed by `get(k)` at any time `t1` within the
TTL returns exactly `v`. -/
theorem cache_roundtrip {V : Type} (ctx : CacheCtx V) (k : String) (v : V)
    (t0 t1 : Nat) (store : Store)
    (hdec : ctx.dec (ctx.enc (ctx.ser v)).1 (ctx.enc (ctx.ser v)).2.1
      (ctx.enc (ctx.ser v)).2.2 = some (ctx.ser v))
    (hser : ctx.deser (ctx.ser v) = some v)
    (httl : t1 - t0 ≤ ctx.ttlMs) :
    (get ctx t1 k (set ctx t0 k v store)).1 = some v := by
  have hfresh : ¬ ctx.ttlMs < t1 - t0 := Nat.not_lt.mpr httl
  unfold get
  rw [lookupE_set_self ctx t0 k v store]
  simp only [freshEntry, if_neg hfresh, hdec, hser]

/-- Concrete cache context used to evaluate the theorems: the identity
serializer and a toy authenticated cipher whose tag is a hash-like
function of the ciphertext, so that decryption succeeds exactly when the
ciphertext/tag pair is intact. -/
def toyCtx : CacheCtx String :=
  { maxSize := 2
    ttlMs := 10
    enc := fun p => (p, "iv", "t" ++ p)
    dec := fun c iv tag => if iv = "iv" ∧ tag = "t" ++ c then some c else none
    ser := fun v => v
    deser := fun s => some s }

/-- Witness for C5: setting "v" under key "k" at time 0 and reading it
back at time 5 (within the TTL of 10) returns "v". -/
theorem cache_roundtrip_witness :
    (get toyCtx 5 "k" (set toyCtx 0 "k" "v" [])).1 = some "v" :=
  cache_roundtrip toyCtx "k" "v" 0 5 [] (by decide) rfl (by decide)

/-- Operations of the cache's public API, for stating properties over
arbitrary operation sequences. -/
inductive CacheOp (V : Type) where
  | setOp (now : Nat) (k : String) (v : V)
  | getOp (now : Nat) (k : String)
  | hasOp (now : Nat) (k : String)
  | delOp (k : String)
  | pruneOp (now : Nat)
  | clearOp

/-- Effect of one cache operation on the store. -/
def applyOp {V : Type} (ctx : CacheCtx V) (store : Store) : CacheOp V → Store
  | CacheOp.setOp now k v => set ctx now k v store
  | CacheOp.getOp now k => (get ctx now k store).2
  | CacheOp.hasOp now k => (hasKey ctx now k store).2
  | CacheOp.delOp k => (deleteE k store).2
  | CacheOp.pruneOp now => prune ctx now store
  | CacheOp.clearOp => []

/-- Run of a sequence of cache operations from the empty store. -/
def runOps {V : Type} (ctx : CacheCtx V) (ops : List (CacheOp V)) : Store :=
  ops.foldl (applyOp ctx) []

theorem evictOldest_length_lt (m : Nat) (hm : 0 < m) :
    ∀ l : Store, (evictOldest m l).length < m := by
  intro l
  induction l with
  | nil => exact hm
  | cons kv rest ih =>
      simp only [evictOldest]
      by_cases h : m ≤ ((kv :: rest) : Store).length
      · rw [if_pos h]
        exact ih
      · rw [if_neg h]
        exact Nat.lt_of_not_le h

theorem set_length_le {V : Type} (ctx : CacheCtx V) (now : Nat) (k : String) (v : V)
    (store : Store) (hm : 0 < ctx.maxSize) :
    (set ctx now k v store).length ≤ ctx.maxSize := by
  unfold set
  rw [List.length_append]
  have := evictOldest_length_lt ctx.maxSize hm (eraseE k store)
  simp only [List.length_cons, List.length_nil]
  omega

theorem eraseE_length_le (k : String) : ∀ l : Store, (eraseE k l).length ≤ l.length := by
  intro l
  induction l with
  | nil => exact Nat.le_refl _
  | cons kv rest ih =>
      obtain ⟨k', e⟩ := kv
      simp only [eraseE]
      by_cases h : k' = k
      · rw [if_pos h]
        exact Nat.le_trans ih (Nat.le_succ _)
      · rw [if_neg h]
        simpa using ih

theorem eraseE_length_lt_of_found (k : String) :
    ∀ l : Store, (lookupE k l).isSome → (eraseE k l).length < l.length := by
  intro l
  induction l with
  | nil => intro h; exact absurd h (by simp [lookupE])
  | cons kv rest ih =>
      obtain ⟨k', e⟩ := kv
      intro h
      simp only [lookupE] at h
      simp only [eraseE]
      by_cases hk : k' = k
      · rw [if_pos hk]
        exact Nat.lt_succ_of_le (eraseE_length_le k rest)
      · rw [if_neg hk] at h
        rw [if_neg hk]
        simp only [List.length_cons]
        exact Nat.succ_lt_succ (ih h)

/-- LRU-touched entry: `lastAccessedAt` refreshed, everything else (in
particular `createdAt`) unchanged. -/
def touch (e : CacheEntry) (now : Nat) : CacheEntry :=
  { e with lastAccessedAt := now }

theorem get_none {V : Type} (ctx : CacheCtx V) (now : Nat) (k : String) (store : Store)
    (h : lookupE k store = none) : get ctx now k store = (none, store) := by
  unfold get
  rw [h]

theorem get_expired {V : Type} (ctx : CacheCtx V) (now : Nat) (k : String) (store : Store)
    (e : CacheEntry) (h : lookupE k store = some e)
    (hexp : ctx.ttlMs < now - e.createdAt) :
    get ctx now k store = (none, eraseE k store) := by
  unfold get
  rw [h]
  exact if_pos hexp

theorem get_fresh {V : Type} (ctx : CacheCtx V) (now : Nat) (k : String) (store : Store)
    (e : CacheEntry) (h : lookupE k store = some e)
    (hexp : ¬ ctx.ttlMs < now - e.createdAt) :
    get ctx now k store =
      (match ctx.dec e.ciphertext e.iv e.authTag with
       | none => (none, eraseE k (eraseE k store ++ [(k, touch e now)]))
       | some p =>
           match ctx.deser p with
           | none => (none, eraseE k (eraseE k store ++ [(k, touch e now)]))
           | some v => (some v, eraseE k store ++ [(k, touch e now)])) := by
  unfold get
  rw [h]
  exact if_neg hexp

theorem get_decfail {V : Type} (ctx : CacheCtx V) (now : Nat) (k : String) (store : Store)
    (e : CacheEntry) (h : lookupE k store = some e)
    (hexp : ¬ ctx.ttlMs < now - e.createdAt)
    (hdec : ctx.dec e.ciphertext e.iv e.authTag = none) :
    get ctx now k store = (none, eraseE k (eraseE k store ++ [(k, touch e now)])) := by
  rw [get_fresh ctx now k store e h hexp, hdec]

theorem get_desfail {V : Type} (ctx : CacheCtx V) (now : Nat) (k : String) (store : Store)
    (e : CacheEntry) (p : String) (h : lookupE k store = some e)
    (hexp : ¬ ctx.ttlMs < now - e.createdAt)
    (hdec : ctx.dec e.ciphertext e.iv e.authTag = some p)
    (hdes : ctx.deser p = none) :
    get ctx now k store = (none, eraseE k (eraseE k store ++ [(k, touch e now)])) := by
  rw [get_fresh ctx now k store e h hexp, hdec]
  show (match ctx.deser p with
        | none => ((none : Option V), eraseE k (eraseE k store ++ [(k, touch e now)]))
        | some v => (some v, eraseE k store ++ [(k, touch e now)])) = _
  rw [hdes]

theorem get_success {V : Type} (ctx : CacheCtx V) (now : Nat) (k : String) (store : Store)
    (e : CacheEntry) (p : String) (v : V) (h : lookupE k store = some e)
    (hexp : ¬ ctx.ttlMs < now - e.createdAt)
    (hdec : ctx.dec e.ciphertext e.iv e.authTag = some p)
    (hdes : ctx.deser p = some v) :
    get ctx now k store = (some v, eraseE k store ++ [(k, touch e now)]) := by
  rw [get_fresh ctx now k store e h hexp, hdec]
  show (match ctx.deser p with
        | none => ((none : Option V), eraseE k (eraseE k store ++ [(k, touch e now)]))
        | some w => (some w, eraseE k store ++ [(k, touch e now)])) = _
  rw [hdes]

theorem hasKey_none {V : Type} (ctx : CacheCtx V) (now : Nat) (k : String) (store : Store)
    (h : lookupE k store = none) : hasKey ctx now k store = (false, store) := by
  unfold hasKey
  rw [h]

theorem hasKey_expired {V : Type} (ctx : CacheCtx V) (now : Nat) (k : String) (store : Store)
    (e : CacheEntry) (h : lookupE k store = some e)
    (hexp : ctx.ttlMs < now - e.createdAt) :
    hasKey ctx now k store = (false, eraseE k store) := by
  unfold hasKey
  rw [h]
  exact if_pos hexp

theorem hasKey_fresh {V : Type} (ctx : CacheCtx V) (now : Nat) (k : String) (store : Store)
    (e : CacheEntry) (h : lookupE k store = some e)
    (hexp : ¬ ctx.ttlMs < now - e.createdAt) :
    hasKey ctx now k store = (true, store) := by
  unfold hasKey
  rw [h]
  exact if_neg hexp

theorem applyOp_length_le {V : Type} (ctx : CacheCtx V) (store : Store) (op : CacheOp V)
    (hm : 0 < ctx.maxSize) (hs : store.length ≤ ctx.maxSize) :
    (applyOp ctx store op).length ≤ ctx.maxSize := by
  cases op with
  | setOp now k v => exact set_length_le ctx now k v store hm
  | getOp now k =>
      simp only [applyOp]
      cases hl : lookupE k store with
      | none => rw [get_none ctx now k store hl]; exact hs
      | some e =>
          have hfound : (lookupE k store).isSome := by rw [hl]; rfl
          have herase := eraseE_length_lt_of_found k store hfound
          by_cases hexp : ctx.ttlMs < now - e.createdAt
          · rw [get_expired ctx now k store e hl hexp]
            exact Nat.le_trans (eraseE_length_le k store) hs
          · cases hdec : ctx.dec e.ciphertext e.iv e.authTag with
            | none =>
                rw [get_decfail ctx now k store e hl hexp hdec]
                refine Nat.le_trans (Nat.le_trans (eraseE_length_le _ _) ?_) hs
                rw [List.length_append]
                simp only [List.length_cons, List.length_nil]
                omega
            | some p =>
                cases hdes : ctx.deser p with
                | none =>
                    rw [get_desfail ctx now k store e p hl hexp hdec hdes]
                    refine Nat.le_trans (Nat.le_trans (eraseE_length_le _ _) ?_) hs
                    rw [List.length_append]
                    simp only [List.length_cons, List.length_nil]
                    omega
                | some v =>
                    rw [get_success ctx now k store e p v hl hexp hdec hdes]
                    refine Nat.le_trans ?_ hs
                    rw [List.length_append]
                    simp only [List.length_cons, List.length_nil]
                    omega
  | hasOp now k =>
      simp only [applyOp]
      cases hl : lookupE k store with
      | none => rw [hasKey_none ctx now k store hl]; exact hs
      | some e =>
          by_cases hexp : ctx.ttlMs < now - e.createdAt
          · rw [hasKey_expired ctx now k store e hl hexp]
            exact Nat.le_trans (eraseE_length_le k store) hs
          · rw [hasKey_fresh ctx now k store e hl hexp]
            exact hs
  | delOp k =>
      exact Nat.le_trans (eraseE_length_le k store) hs
  | pruneOp now =>
      exact Nat.le_trans (List.length_filter_le _ store) hs
  | clearOp =>
      exact Nat.zero_le _

theorem runOps_length_le {V : Type} (ctx : CacheCtx V) (ops : List (CacheOp V))
    (hm : 1 ≤ ctx.maxSize) : (runOps ctx ops).length ≤ ctx.maxSize := by
  have gen : ∀ (l : List (CacheOp V)) (s : Store), s.length ≤ ctx.maxSize →
      (l.foldl (applyOp ctx) s).length ≤ ctx.maxSize := by
    intro l
    induction l with
    | nil => intro s hs; exact hs
    | cons op rest ih =>
        intro s hs
        exact ih (applyOp ctx s op) (applyOp_length_le ctx s op hm hs)
  exact gen ops [] (Nat.zero_le _)

theorem eraseE_of_lookup_none (k : String) :
    ∀ l : Store, lookupE k l = none → eraseE k l = l := by
  intro l
  induction l with
  | nil => intro _; rfl
  | cons kv rest ih =>
      obtain ⟨k', e⟩ := kv
      intro h
      simp only [lookupE] at h
      by_cases hk : k' = k
      · rw [if_pos hk] at h
        exact absurd h (by simp)
      · rw [if_neg hk] at h
        simp only [eraseE]
        rw [if_neg hk, ih h]

theorem evictOldest_of_short (m : Nat) :
    ∀ l : Store, l.length < m → evictOldest m l = l := by
  intro l
  cases l with
  | nil => intro _; rfl
  | cons kv rest =>
      intro h
      simp only [evictOldest]
      rw [if_neg (Nat.not_le.mpr h)]

theorem evictOldest_full (m : Nat) (hm : 0 < m) (l : Store) (hl : l.length = m) :
    evictOldest m l = l.tail := by
  cases l with
  | nil =>
      rw [List.length_nil] at hl
      omega
  | cons kv rest =>
      simp only [evictOldest, List.tail_cons]
      rw [if_pos (Nat.le_of_eq hl.symm)]
      apply evictOldest_of_short
      simp only [List.length_cons] at hl
      omega

theorem keys_length (store : Store) : (keys store).length = store.length :=
  List.length_map store Prod.fst

theorem lookupE_none_of_not_mem (k : String) :
    ∀ store : Store, k ∉ keys store → lookupE k store = none := by
  intro store
  induction store with
  | nil => intro _; rfl
  | cons kv rest ih =>
      obtain ⟨k', e⟩ := kv
      intro h
      simp only [keys, List.map_cons, List.mem_cons, not_or] at h
      simp only [lookupE]
      rw [if_neg (fun hh => h.1 hh.symm)]
      exact ih h.2

theorem set_fresh_small {V : Type} (ctx : CacheCtx V) (now : Nat) (k : String) (v : V)
    (store : Store) (habs : lookupE k store = none) (hsm : store.length < ctx.maxSize) :
    set ctx now k v store = store ++ [(k, freshEntry ctx now v)] := by
  unfold set freshEntry
  simp only [eraseE_of_lookup_none k store habs,
    evictOldest_of_short ctx.maxSize store hsm]

theorem set_fresh_full {V : Type} (ctx : CacheCtx V) (now : Nat) (k : String) (v : V)
    (store : Store) (hm : 1 ≤ ctx.maxSize) (hfull : store.length = ctx.maxSize)
    (habs : lookupE k store = none) :
    set ctx now k v store = store.tail ++ [(k, freshEntry ctx now v)] := by
  unfold set freshEntry
  simp only [eraseE_of_lookup_none k store habs,
    evictOldest_full ctx.maxSize hm store hfull]

/-- Fold of `set` over a list of key/value pairs (all at the same
time; timestamps are irrelevant to capacity and order). -/
def setAll {V : Type} (ctx : CacheCtx V) (now : Nat) (kvs : List (String × V))
    (store : Store) : Store :=
  kvs.foldl (fun st kv => set ctx now kv.1 kv.2 st) store

theorem setAll_keys {V : Type} (ctx : CacheCtx V) (now : Nat) (hm : 1 ≤ ctx.maxSize) :
    ∀ (kvs : List (String × V)) (store : Store),
      (keys store ++ kvs.map Prod.fst).Nodup →
      store.length ≤ ctx.maxSize →
      keys (setAll ctx now kvs store)
        = (keys store ++ kvs.map Prod.fst).drop
            ((keys store ++ kvs.map Prod.fst).length
              - min ((keys store ++ kvs.map Prod.fst).length) ctx.maxSize) := by
  intro kvs
  induction kvs with
  | nil =>
      intro store hnd hlen
      simp only [setAll, List.foldl_nil, List.map_nil, List.append_nil]
      have hx : min (keys store).length ctx.maxSize = (keys store).length := by
        rw [keys_length]
        exact Nat.min_eq_left hlen
      rw [hx, Nat.sub_self, List.drop_zero]
  | cons kv rest ih =>
      intro store hnd hlen
      obtain ⟨k, v⟩ := kv
      have hmem : k ∉ keys store := by
        rw [List.nodup_append] at hnd
        intro hk
        exact hnd.2.2 hk (by simp)
      have habs : lookupE k store = none := lookupE_none_of_not_mem k store hmem
      have hstep : setAll ctx now ((k, v) :: rest) store
          = setAll ctx now rest (set ctx now k v store) := rfl
      rcases Nat.lt_or_ge store.length ctx.maxSize with hsm | hge
      · have hset := set_fresh_small ctx now k v store habs hsm
        rw [hstep, hset]
        have hkeys' : keys (store ++ [(k, freshEntry ctx now v)]) = keys store ++ [k] := by
          simp [keys]
        have hnd' : (keys (store ++ [(k, freshEntry ctx now v)])
            ++ rest.map Prod.fst).Nodup := by
          rw [hkeys', List.append_assoc]
          simpa using hnd
        have hlen' : (store ++ [(k, freshEntry ctx now v)]).length ≤ ctx.maxSize := by
          rw [List.length_append]
          simp only [List.length_cons, List.length_nil]
          omega
        rw [ih (store ++ [(k, freshEntry ctx now v)]) hnd' hlen', hkeys',
          List.append_assoc]
        simp
      · have hfull : store.length = ctx.maxSize := Nat.le_antisymm hlen hge
        have hset := set_fresh_full ctx now k v store hm hfull habs
        rw [hstep, hset]
        cases store with
        | nil =>
            rw [List.length_nil] at hfull
            omega
        | cons e0 st =>
            simp only [List.tail_cons] at hset ⊢
            have hkeys' : keys (st ++ [(k, freshEntry ctx now v)]) = keys st ++ [k] := by
              simp [keys]
            have hall : keys (e0 :: st) ++ (((k, v) :: rest).map Prod.fst)
                = e0.1 :: (keys st ++ (k :: rest.map Prod.fst)) := by
              simp [keys]
            have hnd2 : (keys st ++ (k :: rest.map Prod.fst)).Nodup := by
              rw [hall] at hnd
              exact (List.nodup_cons.mp hnd).2
            have hnd' : (keys (st ++ [(k, freshEntry ctx now v)])
                ++ rest.map Prod.fst).Nodup := by
              rw [hkeys', List.append_assoc]
              simpa using hnd2
            have hstlen : st.length + 1 = ctx.maxSize := by
              simp only [List.length_cons] at hfull
              omega
            have hlen' : (st ++ [(k, freshEntry ctx now v)]).length ≤ ctx.maxSize := by
              rw [List.length_append]
              simp only [List.length_cons, List.length_nil]
              omega
            rw [ih (st ++ [(k, freshEntry ctx now v)]) hnd' hlen', hkeys',
              List.append_assoc, hall]
            have hlena : (keys st ++ ([k] ++ rest.map Prod.fst)).length
                = ctx.maxSize + (rest.map Prod.fst).length := by
              simp only [List.length_append, keys_length, List.length_cons,
                List.length_nil]
              omega
            have hlenb : (e0.1 :: (keys st ++ (k :: rest.map Prod.fst))).length
                = ctx.maxSize + (rest.map Prod.fst).length + 1 := by
              simp only [List.length_cons, List.length_append, keys_length]
              omega
            have hminA : min (keys st ++ ([k] ++ rest.map Prod.fst)).length ctx.maxSize
                = ctx.maxSize := by
              rw [hlena]
              exact Nat.min_eq_right (Nat.le_add_right _ _)
            have hminB : min (e0.1 :: (keys st ++ (k :: rest.map Prod.fst))).length
                ctx.maxSize = ctx.maxSize := by
              rw [hlenb]
              exact Nat.min_eq_right (by omega)
            rw [hminA, hminB, hlena, hlenb]
            have harith : ctx.maxSize + (rest.map Prod.fst).length + 1 - ctx.maxSize
                = (ctx.maxSize + (rest.map Prod.fst).length - ctx.maxSize) + 1 := by
              omega
            rw [harith, List.drop_succ_cons]
            have hsame : keys st ++ ([k] ++ rest.map Prod.fst)
                = keys st ++ (k :: rest.map Prod.fst) := by
              simp
            rw [hsame]

/-- C6 — capacity and LRU eviction, in four parts. (a) After every
sequence of cache operations from the empty store, the store holds at
most `maxSize` entries. (b) A `set` of a fresh key on a store at capacity
evicts exactly the entry at the head of the recency order (the least
recently used), keeps the size at `maxSize`, and appends the new key at
the most-recently-used end. (c) A successful `get` counts as an access:
it moves the read key to the most-recently-used end, so capacity eviction
follows recency-of-access order rather than insertion order.
(d) Inserting `maxSize + 1` distinct keys from the empty store leaves
exactly `maxSize` entries, with the first-inserted key (the
least-recently-used one when no reads intervene) absent. -/
theorem cache_capacity_lru :
    (∀ (V : Type) (ctx : CacheCtx V) (ops : List (CacheOp V)), 1 ≤ ctx.maxSize →
        (runOps ctx ops).length ≤ ctx.maxSize) ∧
    (∀ (V : Type) (ctx : CacheCtx V) (now : Nat) (k : String) (v : V) (store : Store),
        1 ≤ ctx.maxSize → store.length = ctx.maxSize → lookupE k store = none →
          (set ctx now k v store).length = ctx.maxSize ∧
          keys (set ctx now k v store) = (keys store).tail ++ [k]) ∧
    (∀ (V : Type) (ctx : CacheCtx V) (now : Nat) (k : String) (store : Store)
        (e : CacheEntry) (p : String) (v : V),
        lookupE k store = some e → ¬ ctx.ttlMs < now - e.createdAt →
        ctx.dec e.ciphertext e.iv e.authTag = some p → ctx.deser p = some v →
          keys (get ctx now k store).2 = keys (eraseE k store) ++ [k]) ∧
    (∀ (V : Type) (ctx : CacheCtx V) (now : Nat) (k0 : String) (v0 : V)
        (rest : List (String × V)),
        1 ≤ ctx.maxSize → (k0 :: rest.map Prod.fst).Nodup →
        rest.length = ctx.maxSize →
          (setAll ctx now ((k0, v0) :: rest) []).length = ctx.maxSize ∧
          lookupE k0 (setAll ctx now ((k0, v0) :: rest) []) = none) := by
  refine ⟨fun V ctx ops hm => runOps_length_le ctx ops hm, ?_, ?_, ?_⟩
  · intro V ctx now k v store hm hfull habs
    have hset := set_fresh_full ctx now k v store hm hfull habs
    rw [hset]
    constructor
    · rw [List.length_append]
      cases store with
      | nil =>
          rw [List.length_nil] at hfull
          omega
      | cons kv rest =>
          simp only [List.tail_cons, List.length_cons] at hfull ⊢
          simp only [List.length_nil]
          omega
    · cases store with
      | nil =>
          rw [List.length_nil] at hfull
          omega
      | cons kv rest =>
          simp only [keys, List.tail_cons, List.map_append, List.map_cons, List.map_nil]
  · intro V ctx now k store e p v hl hexp hdec hdes
    rw [get_success ctx now k store e p v hl hexp hdec hdes]
    simp only [keys, List.map_append]
    rfl
  · intro V ctx now k0 v0 rest hm hnd hrl
    have hnd0 : (keys ([] : Store) ++ (((k0, v0) :: rest).map Prod.fst)).Nodup := by
      simpa [keys] using hnd
    have hall := setAll_keys ctx now hm ((k0, v0) :: rest) [] hnd0 (by simp)
    simp only [keys, List.map_nil, List.nil_append, List.map_cons] at hall
    have hlen1 : (k0 :: rest.map Prod.fst).length = ctx.maxSize + 1 := by
      simp only [List.length_cons, List.length_map]
      omega
    rw [hlen1] at hall
    have hmin : min (ctx.maxSize + 1) ctx.maxSize = ctx.maxSize :=
      Nat.min_eq_right (by omega)
    rw [hmin] at hall
    have hd1 : ctx.maxSize + 1 - ctx.maxSize = 1 := by omega
    rw [hd1] at hall
    rw [show (k0 :: rest.map Prod.fst).drop 1 = rest.map Prod.fst from rfl] at hall
    constructor
    · have hkl := keys_length (setAll ctx now ((k0, v0) :: rest) [])
      simp only [keys] at hkl
      rw [hall] at hkl
      simp only [List.length_map] at hkl
      omega
    · apply lookupE_none_of_not_mem
      simp only [keys]
      rw [hall]
      exact (List.nodup_cons.mp hnd).1

/-- Witness for C6, at `maxSize = 2`: (a) the three inserts `a, b, c`
leave at most two entries; (b) with `a, b` stored and `a` more recently
accessed than `b` (after a `get` of `a`), inserting fresh key `c` evicts
`b`, the head of the recency order, not the oldest-inserted `a`; (c) the
`get` of `a` moved `a` to the most-recently-used end; (d) three distinct
inserts from empty leave exactly two entries, with the first key absent. -/
theorem cache_capacity_lru_witness :
    (runOps toyCtx [CacheOp.setOp 0 "a" "x", CacheOp.setOp 1 "b" "y",
        CacheOp.setOp 2 "c" "z"]).length ≤ 2 ∧
    (keys (set toyCtx 3 "c" "z"
        (get toyCtx 2 "a" (set toyCtx 1 "b" "y" (set toyCtx 0 "a" "x" []))).2)
      = ["a", "c"]) ∧
    (keys (get toyCtx 2 "a" (set toyCtx 1 "b" "y" (set toyCtx 0 "a" "x" []))).2
      = ["b", "a"]) ∧
    (setAll toyCtx 0 [("a", "x"), ("b", "y"), ("c", "z")] []).length = 2 ∧
    lookupE "a" (setAll toyCtx 0 [("a", "x"), ("b", "y"), ("c", "z")] []) = none := by
  refine ⟨cache_capacity_lru.1 String toyCtx _ (by decide), ?_, ?_, ?_⟩
  · have h := (cache_capacity_lru.2.1 String toyCtx 3 "c" "z"
      (get toyCtx 2 "a" (set toyCtx 1 "b" "y" (set toyCtx 0 "a" "x" []))).2
      (by decide) (by decide) (by decide)).2
    rw [h]
    decide
  · have h := cache_capacity_lru.2.2.1 String toyCtx 2 "a"
      (set toyCtx 1 "b" "y" (set toyCtx 0 "a" "x" []))
      { ciphertext := "x", iv := "iv", authTag := "tx", createdAt := 0, lastAccessedAt := 0 }
      "x" "x" (by decide) (by decide) (by decide) (by decide)
    rw [h]
    decide
  · exact cache_capacity_lru.2.2.2 String toyCtx 0 "a" "x" [("b", "y"), ("c", "z")]
      (by decide) (by decide) (by decide)

/-- Read-only operations (`get` and `has`): the operations the TTL claim
allows between insertion and the final read. -/
inductive ReadOp where
  | getR (now : Nat) (k : String)
  | hasR (now : Nat) (k : String)

/-- Effect of one read operation on the store (reads still mutate: LRU
reordering, `lastAccessedAt`, and lazy expiry deletion). -/
def applyRead {V : Type} (ctx : CacheCtx V) (store : Store) : ReadOp → Store
  | ReadOp.getR now k => (get ctx now k store).2
  | ReadOp.hasR now k => (hasKey ctx now k store).2

/-- Run of a sequence of read operations. -/
def runReads {V : Type} (ctx : CacheCtx V) (store : Store) (reads : List ReadOp) : Store :=
  reads.foldl (applyRead ctx) store

/-- `createdAt` tracking: whatever entry the store holds under `k` was
created at `t0`. -/
def CreatedP (k : String) (t0 : Nat) (store : Store) : Prop :=
  ∀ e, lookupE k store = some e → e.createdAt = t0

theorem lookupE_eraseE_other (k k' : String) (hkk : k ≠ k') :
    ∀ l : Store, lookupE k (eraseE k' l) = lookupE k l := by
  intro l
  induction l with
  | nil => rfl
  | cons kv rest ih =>
      obtain ⟨ka, e⟩ := kv
      simp only [eraseE]
      by_cases ha : ka = k'
      · rw [if_pos ha, ih]
        simp only [lookupE]
        have : ¬ ka = k := by
          rw [ha]
          exact fun hh => hkk hh.symm
        rw [if_neg this]
      · rw [if_neg ha]
        simp only [lookupE]
        by_cases hb : ka = k
        · rw [if_pos hb, if_pos hb]
        · rw [if_neg hb, if_neg hb, ih]

theorem lookupE_append_left (k : String) (l2 : Store) :
    ∀ (l1 : Store) (e : CacheEntry), lookupE k l1 = some e →
      lookupE k (l1 ++ l2) = some e := by
  intro l1
  induction l1 with
  | nil => intro e h; exact absurd h (by simp [lookupE])
  | cons kv rest ih =>
      obtain ⟨ka, ea⟩ := kv
      intro e h
      simp only [lookupE] at h
      simp only [List.cons_append, lookupE]
      by_cases hb : ka = k
      · rw [if_pos hb] at h
        rw [if_pos hb]
        exact h
      · rw [if_neg hb] at h
        rw [if_neg hb]
        exact ih e h

theorem lookupE_singleton_self (k : String) (e : CacheEntry) :
    lookupE k [(k, e)] = some e := by
  simp [lookupE]

theorem lookupE_singleton_other (k k' : String) (hkk : ¬ k' = k) (e : CacheEntry) :
    lookupE k [(k', e)] = none := by
  simp only [lookupE]
  rw [if_neg hkk]

theorem createdP_eraseE (k k' : String) (t0 : Nat) (store : Store)
    (hP : CreatedP k t0 store) : CreatedP k t0 (eraseE k' store) := by
  intro e he
  by_cases hkk : k = k'
  · rw [← hkk, lookupE_eraseE_self] at he
    exact absurd he (by simp)
  · rw [lookupE_eraseE_other k k' hkk] at he
    exact hP e he

theorem createdP_append_touch (k k' : String) (t0 now : Nat) (store : Store)
    (e : CacheEntry) (hP : CreatedP k t0 store) (hl : lookupE k' store = some e) :
    CreatedP k t0 (eraseE k' store ++ [(k', touch e now)]) := by
  intro e' he'
  cases hfirst : lookupE k (eraseE k' store) with
  | some f =>
      rw [lookupE_append_left k _ _ f hfirst] at he'
      have hf : f.createdAt = t0 := by
        by_cases hkk : k = k'
        · rw [← hkk, lookupE_eraseE_self] at hfirst
          exact absurd hfirst (by simp)
        · rw [lookupE_eraseE_other k k' hkk] at hfirst
          exact hP f hfirst
      rw [← Option.some.inj he']
      exact hf
  | none =>
      rw [lookupE_append_of_left_none k _ _ hfirst] at he'
      by_cases hkk : k' = k
      · subst hkk
        rw [lookupE_singleton_self] at he'
        rw [← Option.some.inj he']
        exact hP e hl
      · rw [lookupE_singleton_other k k' hkk] at he'
        exact absurd he' (by simp)

theorem applyRead_createdP {V : Type} (ctx : CacheCtx V) (k : String) (t0 : Nat)
    (store : Store) (r : ReadOp) (hP : CreatedP k t0 store) :
    CreatedP k t0 (applyRead ctx store r) := by
  cases r with
  | getR now k' =>
      simp only [applyRead]
      cases hl : lookupE k' store with
      | none =>
          rw [get_none ctx now k' store hl]
          exact hP
      | some e =>
          by_cases hexp : ctx.ttlMs < now - e.createdAt
          · rw [get_expired ctx now k' store e hl hexp]
            exact createdP_eraseE k k' t0 store hP
          · cases hdec : ctx.dec e.ciphertext e.iv e.authTag with
            | none =>
                rw [get_decfail ctx now k' store e hl hexp hdec]
                exact createdP_eraseE k k' t0 _
                  (createdP_append_touch k k' t0 now store e hP hl)
            | some p =>
                cases hdes : ctx.deser p with
                | none =>
                    rw [get_desfail ctx now k' store e p hl hexp hdec hdes]
                    exact createdP_eraseE k k' t0 _
                      (createdP_append_touch k k' t0 now store e hP hl)
                | some v =>
                    rw [get_success ctx now k' store e p v hl hexp hdec hdes]
                    exact createdP_append_touch k k' t0 now store e hP hl
  | hasR now k' =>
      simp only [applyRead]
      cases hl : lookupE k' store with
      | none =>
          rw [hasKey_none ctx now k' store hl]
          exact hP
      | some e =>
          by_cases hexp : ctx.ttlMs < now - e.createdAt
          · rw [hasKey_expired ctx now k' store e hl hexp]
            exact createdP_eraseE k k' t0 store hP
          · rw [hasKey_fresh ctx now k' store e hl hexp]
            exact hP

theorem runReads_createdP {V : Type} (ctx : CacheCtx V) (k : String) (t0 : Nat) :
    ∀ (reads : List ReadOp) (store : Store), CreatedP k t0 store →
      CreatedP k t0 (runReads ctx store reads) := by
  intro reads
  induction reads with
  | nil => intro store hP; exact hP
  | cons r rest ih =>
      intro store hP
      exact ih (applyRead ctx store r) (applyRead_createdP ctx k t0 store r hP)

/-- C7 — TTL does not slide: a key set at `t0` and read at any time
`t1 > t0 + ttl` is absent (and physically deleted), no matter how many
`get`/`has` calls happened in between: reads refresh only
`lastAccessedAt`, never `createdAt`. -/
theorem cache_ttl_no_slide {V : Type} (ctx : CacheCtx V) (k : String) (v : V)
    (t0 : Nat) (reads : List ReadOp) (t1 : Nat) (store : Store)
    (h : t0 + ctx.ttlMs < t1) :
    (get ctx t1 k (runReads ctx (set ctx t0 k v store) reads)).1 = none ∧
    lookupE k (get ctx t1 k (runReads ctx (set ctx t0 k v store) reads)).2 = none := by
  have hP0 : CreatedP k t0 (set ctx t0 k v store) := by
    intro e he
    rw [lookupE_set_self ctx t0 k v store] at he
    rw [← Option.some.inj he]
    rfl
  have hP := runReads_createdP ctx k t0 reads (set ctx t0 k v store) hP0
  cases hfin : lookupE k (runReads ctx (set ctx t0 k v store) reads) with
  | none =>
      rw [get_none ctx t1 k _ hfin]
      exact ⟨rfl, hfin⟩
  | some e =>
      have hc : e.createdAt = t0 := hP e hfin
      have hexp : ctx.ttlMs < t1 - e.createdAt := by
        rw [hc]
        omega
      rw [get_expired ctx t1 k _ e hfin hexp]
      exact ⟨rfl, lookupE_eraseE_self k _⟩

/-- Witness for C7: `ttl = 10`, set at time 0, one successful read at
time 1; the read at time 11 misses and deletes the entry. -/
theorem cache_ttl_no_slide_witness :
    (get toyCtx 11 "k"
        (runReads toyCtx (set toyCtx 0 "k" "v" []) [ReadOp.getR 1 "k"])).1 = none ∧
    lookupE "k"
        (get toyCtx 11 "k"
          (runReads toyCtx (set toyCtx 0 "k" "v" []) [ReadOp.getR 1 "k"])).2 = none :=
  cache_ttl_no_slide toyCtx "k" "v" 0 [ReadOp.getR 1 "k"] 11 [] (by decide)

/-- C8 — tamper resistance: a stored entry whose ciphertext or
authentication tag is corrupted (or was encrypted under a different key),
so that authenticated decryption fails — or whose recovered plaintext no
longer deserializes — yields a miss on `get` and is deleted; `get` is a
total function, so no error escapes and no garbage value is returned. -/
theorem cache_tamper_miss {V : Type} (ctx : CacheCtx V) (now : Nat) (k : String)
    (store : Store) (e : CacheEntry) (hl : lookupE k store = some e)
    (hfresh : ¬ ctx.ttlMs < now - e.createdAt)
    (hbad : ∀ p, ctx.dec e.ciphertext e.iv e.authTag = some p → ctx.deser p = none) :
    (get ctx now k store).1 = none ∧ lookupE k (get ctx now k store).2 = none := by
  cases hdec : ctx.dec e.ciphertext e.iv e.authTag with
  | none =>
      rw [get_decfail ctx now k store e hl hfresh hdec]
      exact ⟨rfl, lookupE_eraseE_self k _⟩
  | some p =>
      rw [get_desfail ctx now k store e p hl hfresh hdec (hbad p hdec)]
      exact ⟨rfl, lookupE_eraseE_self k _⟩

/-- Witness for C8: an entry whose authentication tag was corrupted (it
no longer matches the ciphertext) is reported absent by `get` at time 5
and deleted. -/
theorem cache_tamper_miss_witness :
    (get toyCtx 5 "k"
        [("k", { ciphertext := "c", iv := "iv", authTag := "bad",
                 createdAt := 0, lastAccessedAt := 0 })]).1 = none ∧
    lookupE "k"
        (get toyCtx 5 "k"
          [("k", { ciphertext := "c", iv := "iv", authTag := "bad",
                   createdAt := 0, lastAccessedAt := 0 })]).2 = none :=
  cache_tamper_miss toyCtx 5 "k" _
    { ciphertext := "c", iv := "iv", authTag := "bad", createdAt := 0, lastAccessedAt := 0 }
    (by decide) (by decide)
    (by
      intro p hp
      rw [show toyCtx.dec "c" "iv" "bad" = none from by decide] at hp
      exact Option.noConfusion hp)

end Cache

namespace SessionM

/-- Session status values, as the source's `SessionStatus` union. -/
inductive SessionStatus where
  | waiting_confirm
  | waiting_key
  | generating
  | done
  | error
deriving DecidableEq

/-- Session record, as the source's `Session` interface (optional fields
are `Option`). -/
structure Session where
  id : String
  userId : String
  chatId : String
  messageId : String
  cardMessageId : Option String
  textContent : String
  imageKeys : List String
  apiKey : Option String
  artStyle : Option String
  aspectRatio : Option String
  brightness : Option String
  colorTone : Option String
  detailLevel : Option String
  negativePrompt : Option String
  seed : Option String
  status : SessionStatus
  createdAt : Nat
deriving DecidableEq

/-- Partial update, as the source's `SessionUpdates`
(`Partial<Pick<Session, ...>>`): `none` means the field is not present in
the update object. -/
structure SessionUpdates where
  cardMessageId : Option String := none
  apiKey : Option String := none
  status : Option SessionStatus := none
  artStyle : Option String := none
  aspectRatio : Option String := none
  brightness : Option String := none
  colorTone : Option String := none
  detailLevel : Option String := none
  negativePrompt : Option String := none
  seed : Option String := none
deriving DecidableEq

/-- `Object.assign(session, updates)`: every field present in the update
overwrites the stored one; absent fields are kept. -/
def applyUpdates (s : Session) (u : SessionUpdates) : Session :=
  { s with
    cardMessageId := match u.cardMessageId with
      | some x => some x
      | none => s.cardMessageId
    apiKey := match u.apiKey with
      | some x => some x
      | none => s.apiKey
    status := match u.status with
      | some x => x
      | none => s.status
    artStyle := match u.artStyle with
      | some x => some x
      | none => s.artStyle
    aspectRatio := match u.aspectRatio with
      | some x => some x
      | none => s.aspectRatio
    brightness := match u.brightness with
      | some x => some x
      | none => s.brightness
    colorTone := match u.colorTone with
      | some x => some x
      | none => s.colorTone
    detailLevel := match u.detailLevel with
      | some x => some x
      | none => s.detailLevel
    negativePrompt := match u.negativePrompt with
      | some x => some x
      | none => s.negativePrompt
    seed := match u.seed with
      | some x => some x
      | none => s.seed }

/-- Session store: association list in `Map` iteration order. -/
abbrev SStore : Type := List (String × Session)

/-- Lookup by session id. -/
def lookupS (id : String) : SStore → Option Session
  | [] => none
  | (k, s) :: rest => if k = id then some s else lookupS id rest

/-- In-place replacement of the value stored under `id` (the source
mutates the found session object, so the map structure and order are
untouched). -/
def setValueS (id : String) (s' : Session) : SStore → SStore
  | [] => []
  | (k, s) :: rest => if k = id then (k, s') :: rest else (k, s) :: setValueS id s' rest

/-- `update(id, updates)`: unknown id is a no-op returning absent; a
present id gets the partial fields merged in and the updated session
returned. The function is total: no input raises an error. -/
def update (store : SStore) (id : String) (u : SessionUpdates) :
    Option Session × SStore :=
  match lookupS id store with
  | none => (none, store)
  | some s => (some (applyUpdates s u), setValueS id (applyUpdates s u) store)

theorem update_of_lookup_none (store : SStore) (id : String) (u : SessionUpdates)
    (h : lookupS id store = none) : update store id u = (none, store) := by
  unfold update
  rw [h]

theorem update_of_lookup_some (store : SStore) (id : String) (u : SessionUpdates)
    (s : Session) (h : lookupS id store = some s) :
    update store id u = (some (applyUpdates s u), setValueS id (applyUpdates s u) store) := by
  unfold update
  rw [h]

theorem lookupS_setValueS_self (id : String) (s' : Session) :
    ∀ store : SStore, (lookupS id store).isSome →
      lookupS id (setValueS id s' store) = some s' := by
  intro store
  induction store with
  | nil => intro h; exact absurd h (by simp [lookupS])
  | cons kv rest ih =>
      obtain ⟨k, s⟩ := kv
      intro h
      simp only [lookupS] at h
      simp only [setValueS]
      by_cases hk : k = id
      · rw [if_pos hk]
        simp only [lookupS]
        rw [if_pos hk]
      · rw [if_neg hk] at h
        rw [if_neg hk]
        simp only [lookupS]
        rw [if_neg hk]
        exact ih h

theorem lookupS_setValueS_other (id id' : String) (s' : Session) (hne : id' ≠ id) :
    ∀ store : SStore, lookupS id' (setValueS id s' store) = lookupS id' store := by
  intro store
  induction store with
  | nil => rfl
  | cons kv rest ih =>
      obtain ⟨k, s⟩ := kv
      simp only [setValueS]
      by_cases hk : k = id
      · rw [if_pos hk]
        simp only [lookupS]
        have hk' : ¬ k = id' := by
          rw [hk]
          exact fun hh => hne hh.symm
        rw [if_neg hk', if_neg hk']
      · rw [if_neg hk]
        simp only [lookupS]
        by_cases hk2 : k = id'
        · rw [if_pos hk2, if_pos hk2]
        · rw [if_neg hk2, if_neg hk2, ih]

/-- C9 — update semantics of the session store: for an id not present
(unknown, expired or swept), `update` returns absent and leaves the store
unchanged — and, being a total function, raises no error; for a present
id it merges the partial fields into the stored session, returns the
merged session, stores it under the same id, and leaves every other id's
entry untouched. -/
theorem update_semantics (store : SStore) (id : String) (u : SessionUpdates) :
    (lookupS id store = none →
      (update store id u).1 = none ∧ (update store id u).2 = store) ∧
    (∀ s, lookupS id store = some s →
      (update store id u).1 = some (applyUpdates s u) ∧
      lookupS id (update store id u).2 = some (applyUpdates s u) ∧
      ∀ id', id' ≠ id → lookupS id' (update store id u).2 = lookupS id' store) := by
  constructor
  · intro h
    rw [update_of_lookup_none store id u h]
    exact ⟨rfl, rfl⟩
  · intro s h
    rw [update_of_lookup_some store id u s h]
    refine ⟨rfl, ?_, ?_⟩
    · exact lookupS_setValueS_self id (applyUpdates s u) store (by rw [h]; rfl)
    · intro id' hne
      exact lookupS_setValueS_other id id' (applyUpdates s u) hne store

/-- Concrete session used by the C9 witness. -/
def s0 : Session :=
  { id := "s1", userId := "u", chatId := "c", messageId := "m", cardMessageId := none,
    textContent := "hi", imageKeys := [], apiKey := none, artStyle := none,
    aspectRatio := none, brightness := none, colorTone := none, detailLevel := none,
    negativePrompt := none, seed := none, status := SessionStatus.waiting_confirm,
    createdAt := 0 }

/-- Concrete partial update used by the C9 witness: only `status` is
present. -/
def u0 : SessionUpdates :=
  { status := some SessionStatus.generating }

/-- Witness for C9: updating an unknown id returns absent and leaves the
store unchanged; updating a present id returns the merged session. -/
theorem update_semantics_witness :
    ((update [("s1", s0)] "zzz" u0).1 = none
      ∧ (update [("s1", s0)] "zzz" u0).2 = [("s1", s0)]) ∧
    (update [("s1", s0)] "s1" u0).1 = some (applyUpdates s0 u0) :=
  ⟨(update_semantics [("s1", s0)] "zzz" u0).1 (by decide),
   ((update_semantics [("s1", s0)] "s1" u0).2 s0 (by decide)).1⟩

end SessionM
